import Mathlib

/-!
Shallow embedding of the breed-resolution engine of `src/main.py`
(`load_breeds_cache`, `search_breeds`, `resolve_breed_code`) and proofs of
the specification claims about it.

Python strings are modelled as Lean `String`s manipulated through their
character lists; `str.lower`, `str.strip`, `str.capitalize`, `in`
(substring) and `startswith` are given explicit ASCII-faithful models.
The rapidfuzz scorer `fuzz.token_sort_ratio` used by the fuzzy phase is the
normalized Indel similarity of the two whitespace-token-sorted strings,
`200 * lcs / (len a + len b)`, modelled over `ℚ`.
-/

namespace PolicyMCP

/-- One entry of the breed reference table: `label` and the two provider
identifiers the engine reads (`providers.get("HealthyPaws")`,
`providers.get("PrudentPet", "")`). -/
structure BreedData where
  label : String
  healthyPaws : Option String
  prudentPet : Option String
deriving DecidableEq

/-- The breed reference table: a Python dict in insertion order
(key-to-record mapping). -/
abbrev Table := List (String × BreedData)

/-- Python `str.lower()` (ASCII). -/
def lowerStr (s : String) : String := ⟨s.data.map Char.toLower⟩

/-- Python `str.strip()` on a character list: drop whitespace at both ends. -/
def stripChars (l : List Char) : List Char :=
  ((l.dropWhile Char.isWhitespace).reverse.dropWhile Char.isWhitespace).reverse

/-- Python `str.strip()`. -/
def stripStr (s : String) : String := ⟨stripChars s.data⟩

/-- Python `str.capitalize()`: first character upper-cased, rest lower-cased. -/
def capStr (s : String) : String :=
  match s.data with
  | [] => ""
  | c :: rest => ⟨Char.toUpper c :: rest.map Char.toLower⟩

/-- Python `s.startswith(p)`. -/
def startsWith (p s : String) : Bool := p.data.isPrefixOf s.data

/-- Contiguous-substring test on character lists (Python `sub in s`). -/
def isSubstrL (pat : List Char) : List Char → Bool
  | [] => pat.isEmpty
  | c :: rest => pat.isPrefixOf (c :: rest) || isSubstrL pat rest

/-- Python `sub in s` on strings. -/
def substrStr (sub s : String) : Bool := isSubstrL sub.data s.data

/-- Python truthiness of an optional string (`None` and `""` are falsy). -/
def optTruthy : Option String → Bool
  | none => false
  | some s => !s.isEmpty

/-- The species tag prepended to `"~"`: `f"{species_type.capitalize()}~"`. -/
def spTag (species_type : String) : String := capStr species_type ++ "~"

/-- The record filter shared by both loops of `search_breeds`: a non-empty
HealthyPaws identifier and a PrudentPet identifier starting with the species
tag. -/
def isEligible (d : BreedData) (pre : String) : Bool :=
  optTruthy d.healthyPaws && startsWith pre (d.prudentPet.getD "")

/-- One element of the `matches` list built by `search_breeds`. -/
structure MatchCand where
  key : String
  label : String
  breedId : String
  matchType : String
  score : Option ℚ
deriving DecidableEq

/-- The exact/partial loop of `search_breeds` (src/main.py lines 44-74):
one pass over the table, classifying each eligible record as an exact match
(lower-cased label or key equals the normalized query), else a partial match
(query contained in lower-cased label or key), else skipping it. -/
def searchPass : Table → String → String → List MatchCand
  | [], _, _ => []
  | (k, d) :: rest, ql, pre =>
    if isEligible d pre then
      if lowerStr d.label = ql ∨ k = ql then
        ⟨k, d.label, d.healthyPaws.getD "", "exact", none⟩ :: searchPass rest ql pre
      else if substrStr ql (lowerStr d.label) ∨ substrStr ql k then
        ⟨k, d.label, d.healthyPaws.getD "", "partial", none⟩ :: searchPass rest ql pre
      else searchPass rest ql pre
    else searchPass rest ql pre

/-- The value stored in the `breed_labels` dict of the fuzzy phase. -/
structure FuzzyInfo where
  key : String
  breedId : String
  label : String
deriving DecidableEq

/-- Python dict assignment `m[k] = v`: replace the value of an existing key
in place (keeping its position), otherwise append the new binding. -/
def dictInsert : List (String × FuzzyInfo) → String → FuzzyInfo → List (String × FuzzyInfo)
  | [], k, v => [(k, v)]
  | (k0, v0) :: rest, k, v =>
    if k0 = k then (k0, v) :: rest else (k0, v0) :: dictInsert rest k v

/-- Python dict lookup `m[k]` as an option. -/
def dictFind (m : List (String × FuzzyInfo)) (k : String) : Option FuzzyInfo :=
  (m.find? (fun p => p.1 == k)).map Prod.snd

/-- The `breed_labels` dict of the fuzzy phase (src/main.py lines 78-89):
label-keyed, built over the eligible records in table order; a repeated
label overwrites the stored record. -/
def buildLabels (breeds : Table) (pre : String) : List (String × FuzzyInfo) :=
  breeds.foldl
    (fun acc p =>
      if isEligible p.2 pre then
        dictInsert acc p.2.label ⟨p.1, p.2.healthyPaws.getD "", p.2.label⟩
      else acc)
    []

/-- The eligible record that backs label `l` after `buildLabels`: the LAST
record in table order passing the filter whose label is `l`. -/
def lastEligibleInfo : Table → String → String → Option FuzzyInfo
  | [], _, _ => none
  | (k, d) :: rest, pre, l =>
    match lastEligibleInfo rest pre l with
    | some i => some i
    | none =>
      if isEligible d pre ∧ d.label = l then
        some ⟨k, d.healthyPaws.getD "", d.label⟩
      else none

/-- Whitespace tokenization worker, structurally recursive on a fuel bound
(any fuel at least the list length gives the same, fuel-free answer;
see `wsTokensF_congr`). -/
def wsTokensF : Nat → List Char → List (List Char)
  | _, [] => []
  | 0, _ :: _ => []
  | fuel + 1, c :: rest =>
    if c.isWhitespace then wsTokensF fuel rest
    else
      (c :: rest.takeWhile (fun d => !d.isWhitespace)) ::
        wsTokensF fuel (rest.dropWhile (fun d => !d.isWhitespace))

/-- Whitespace tokenization: Python `str.split()` as rapidfuzz uses it
(split on whitespace runs, no empty tokens). -/
def wsTokens (l : List Char) : List (List Char) := wsTokensF l.length l

/-- Code-point lexicographic order on character lists (Python string `<=`). -/
def charListLe : List Char → List Char → Bool
  | [], _ => true
  | _ :: _, [] => false
  | a :: as, b :: bs => if a = b then charListLe as bs else decide (a < b)

/-- Insertion step of the ascending token sort. -/
def insTok (x : List Char) : List (List Char) → List (List Char)
  | [] => [x]
  | y :: ys => if charListLe y x then y :: insTok x ys else x :: y :: ys

/-- Ascending insertion sort of the token list (Python `sorted`). -/
def sortToks : List (List Char) → List (List Char)
  | [] => []
  | x :: xs => insTok x (sortToks xs)

/-- Join tokens with single spaces (`" ".join`). -/
def joinSpace : List (List Char) → List Char
  | [] => []
  | [t] => t
  | t :: rest => t ++ ' ' :: joinSpace rest

/-- The token-sort normalization rapidfuzz applies before scoring:
split on whitespace, sort the tokens, join with spaces. -/
def sortedJoin (s : String) : List Char := joinSpace (sortToks (wsTokens s.data))

/-- Longest-common-subsequence worker, structurally recursive on a fuel
bound (the sum of the lengths always suffices). -/
def lcsLenF : Nat → List Char → List Char → Nat
  | _, [], _ => 0
  | _, _ :: _, [] => 0
  | 0, _ :: _, _ :: _ => 0
  | fuel + 1, a :: as, b :: bs =>
    if a = b then lcsLenF fuel as bs + 1
    else max (lcsLenF fuel (a :: as) bs) (lcsLenF fuel as (b :: bs))

/-- Longest-common-subsequence length of two character lists. -/
def lcsLen (a b : List Char) : Nat := lcsLenF (a.length + b.length) a b

/-- `fuzz.token_sort_ratio`: the normalized Indel similarity
`200 * lcs / (la + lb)` of the token-sorted strings, 100 for two empty
strings. The rational is built with `Rat.divInt` (the same value as the
division in `ℚ`) so that concrete scores evaluate inside the kernel. -/
def tokenSortScore (q l : String) : ℚ :=
  if (sortedJoin q).length + (sortedJoin l).length = 0 then Rat.divInt 100 1
  else
    Rat.divInt (Int.ofNat (200 * lcsLen (sortedJoin q) (sortedJoin l)))
      (Int.ofNat ((sortedJoin q).length + (sortedJoin l).length))

/-- Stable descending insertion by score: an element goes after every
earlier element with a greater-or-equal score. -/
def insertByScoreDesc (x : String × ℚ) : List (String × ℚ) → List (String × ℚ)
  | [] => [x]
  | y :: ys => if x.2 ≥ y.2 then x :: y :: ys else y :: insertByScoreDesc x ys

/-- Stable descending sort by score (ties keep encounter order), as
`process.extract` orders its results. -/
def sortByScoreDesc : List (String × ℚ) → List (String × ℚ)
  | [] => []
  | x :: xs => insertByScoreDesc x (sortByScoreDesc xs)

/-- `process.extract(breed_name, labels, scorer=fuzz.token_sort_ratio,
limit=5)`: score every label against the raw query, order by descending
score, keep the top 5. -/
def fuzzyResults (q : String) (labels : List String) : List (String × ℚ) :=
  (sortByScoreDesc (labels.map (fun l => (l, tokenSortScore q l)))).take 5

/-- The candidate appended for one surviving fuzzy result `p`: the stored
dict entry for the label `p.1` (total via `getD`; the label is always a dict
key) with `matchType = "fuzzy"` and the score. -/
def fuzzyCandOf (bl : List (String × FuzzyInfo)) (p : String × ℚ) : MatchCand :=
  ⟨((dictFind bl p.1).getD ⟨"", "", ""⟩).key,
   ((dictFind bl p.1).getD ⟨"", "", ""⟩).label,
   ((dictFind bl p.1).getD ⟨"", "", ""⟩).breedId,
   "fuzzy", some p.2⟩

/-- The fuzzy branch of `search_breeds` (src/main.py lines 77-109): build the
label dict; when it is non-empty, score and rank the labels against the raw
query and emit one fuzzy candidate per result scoring strictly above 70. -/
def fuzzyPhase (breeds : Table) (breed_name pre : String) : List MatchCand :=
  if (buildLabels breeds pre).isEmpty then []
  else
    ((fuzzyResults breed_name ((buildLabels breeds pre).map Prod.fst)).filter
        (fun p => Rat.divInt 70 1 < p.2)).map
      (fuzzyCandOf (buildLabels breeds pre))

/-- The value returned by `search_breeds`; `matchList` models the
`"matches"` entry of the returned dict (`matches` is a reserved word in
Lean) and `count` the `"count"` entry. -/
structure SearchResult where
  matchList : List MatchCand
  count : Nat
deriving DecidableEq

/-- The final `matches` list of `search_breeds`: the exact/partial pass,
or, when it produced nothing, the fuzzy phase. -/
def searchMatches (breeds : Table) (breed_name species_type : String) : List MatchCand :=
  if (searchPass breeds (stripStr (lowerStr breed_name)) (spTag species_type)).isEmpty then
    fuzzyPhase breeds breed_name (spTag species_type)
  else searchPass breeds (stripStr (lowerStr breed_name)) (spTag species_type)

/-- `search_breeds(breed_name, species_type)` (src/main.py lines 30-114),
with the cached table passed explicitly. -/
def search_breeds (breeds : Table) (breed_name species_type : String) : SearchResult :=
  ⟨searchMatches breeds breed_name species_type,
   (searchMatches breeds breed_name species_type).length⟩

/-- The four `HTTPException` raise sites of `resolve_breed_code`, one
constructor per distinct detail message. -/
inductive BreedErr
  | speciesRequired
  | speciesInvalid
  | breedRequired
  | notFound
deriving DecidableEq

/-- The HTTP status code each raise site uses. -/
def errStatus : BreedErr → Nat
  | .speciesRequired => 400
  | .speciesInvalid => 404
  | .breedRequired => 400
  | .notFound => 404

/-- The two success shapes of `resolve_breed_code`: the single-match dict
`(breed_id, label, key)` and the multiple-match dict with its count and its
`(label, key, match_type)` options. -/
inductive ResolveOk
  | resolved (breedId label key : String)
  | ambiguous (count : Nat) (options : List (String × String × String))
deriving DecidableEq

/-- `resolve_breed_code(species_type, breed_name)` (src/main.py lines
116-165), with the table passed explicitly; raised `HTTPException`s become
`Except.error`. The `[]` arm of the single-match branch is unreachable
(`count` is the length of `matches`). -/
def resolve_breed_code (breeds : Table) (species_type breed_name : String) :
    Except BreedErr ResolveOk :=
  if species_type = "" then .error .speciesRequired
  else
    let species := lowerStr species_type
    if ¬(species = "dog" ∨ species = "cat") then .error .speciesInvalid
    else if breed_name = "" then .error .breedRequired
    else
      let r := search_breeds breeds breed_name species
      if r.count = 0 then .error .notFound
      else if r.count = 1 then
        match r.matchList with
        | m :: _ => .ok (.resolved m.breedId m.label m.key)
        | [] => .error .notFound
      else
        .ok (.ambiguous r.count (r.matchList.map (fun m => (m.label, m.key, m.matchType))))

instance {ε α : Type} [DecidableEq ε] [DecidableEq α] : DecidableEq (Except ε α) := fun a b =>
  match a, b with
  | .error e1, .error e2 =>
    if h : e1 = e2 then .isTrue (by rw [h])
    else .isFalse (fun hc => h (by injection hc))
  | .ok a1, .ok a2 =>
    if h : a1 = a2 then .isTrue (by rw [h])
    else .isFalse (fun hc => h (by injection hc))
  | .error _, .ok _ => .isFalse (fun hc => Except.noConfusion hc)
  | .ok _, .error _ => .isFalse (fun hc => Except.noConfusion hc)

/-- `load_breeds_cache()` (src/main.py lines 22-28) with the module-global
`BREEDS_CACHE` passed and returned explicitly and the parsed on-disk dataset
as a parameter; the `Bool` records whether this call read and parsed the
source. -/
def load_breeds_cache (cache : Option Table) (disk : Table) :
    Table × Option Table × Bool :=
  match cache with
  | none => (disk, some disk, true)
  | some t => (t, some t, false)

/-! ### Phase structure lemmas -/

theorem matchList_eq (breeds : Table) (q sp : String) :
    (search_breeds breeds q sp).matchList =
      if (searchPass breeds (stripStr (lowerStr q)) (spTag sp)).isEmpty then
        fuzzyPhase breeds q (spTag sp)
      else searchPass breeds (stripStr (lowerStr q)) (spTag sp) := by
  unfold search_breeds searchMatches
  rfl

theorem count_eq (breeds : Table) (q sp : String) :
    (search_breeds breeds q sp).count = (search_breeds breeds q sp).matchList.length := rfl

theorem searchPass_matchType (ql pre : String) (m : MatchCand) :
    ∀ breeds : Table, m ∈ searchPass breeds ql pre →
      m.matchType = "exact" ∨ m.matchType = "partial" := by
  intro breeds
  induction breeds with
  | nil => simp [searchPass]
  | cons p rest ih =>
    obtain ⟨k, d⟩ := p
    simp only [searchPass]
    split
    · split
      · intro h
        rcases List.mem_cons.1 h with h | h
        · subst h; left; rfl
        · exact ih h
      · split
        · intro h
          rcases List.mem_cons.1 h with h | h
          · subst h; right; rfl
          · exact ih h
        · exact ih
    · exact ih

theorem divInt70_eq : Rat.divInt 70 1 = (70 : ℚ) := by norm_num

theorem fuzzyPhase_shape (breeds : Table) (q pre : String) (m : MatchCand)
    (h : m ∈ fuzzyPhase breeds q pre) :
    m.matchType = "fuzzy" ∧ ∃ s, m.score = some s ∧ 70 < s := by
  unfold fuzzyPhase at h
  split at h
  · simp at h
  · rcases List.mem_map.1 h with ⟨p, hp, hm⟩
    have hgt : (70 : ℚ) < p.2 := by
      have := (List.mem_filter.1 hp).2
      rw [← divInt70_eq]
      simpa using this
    subst hm
    exact ⟨rfl, p.2, rfl, hgt⟩

theorem mem_fuzzyPhase_iff (breeds : Table) (q pre : String) (m : MatchCand) :
    m ∈ fuzzyPhase breeds q pre ↔
      ∃ p ∈ (fuzzyResults q ((buildLabels breeds pre).map Prod.fst)).filter
          (fun p => Rat.divInt 70 1 < p.2),
        m = fuzzyCandOf (buildLabels breeds pre) p := by
  unfold fuzzyPhase
  split
  · rename_i hbl
    rw [List.isEmpty_iff] at hbl
    rw [hbl]
    simp [fuzzyResults, sortByScoreDesc]
  · constructor
    · intro h
      rcases List.mem_map.1 h with ⟨p, hp, he⟩
      exact ⟨p, hp, he.symm⟩
    · rintro ⟨p, hp, he⟩
      exact List.mem_map.2 ⟨p, hp, he.symm⟩

theorem fuzzy_only_if_searchPass_nil (breeds : Table) (q sp : String) (m : MatchCand)
    (hm : m ∈ (search_breeds breeds q sp).matchList) (hf : m.matchType = "fuzzy") :
    searchPass breeds (stripStr (lowerStr q)) (spTag sp) = [] := by
  rw [matchList_eq] at hm
  by_cases hnil : searchPass breeds (stripStr (lowerStr q)) (spTag sp) = []
  · exact hnil
  · rw [if_neg (by simpa [List.isEmpty_iff] using hnil)] at hm
    rcases searchPass_matchType _ _ _ _ hm with h | h <;> rw [hf] at h <;> simp at h

/-! ### Sorting lemmas for the fuzzy ranking -/

theorem mem_insertByScoreDesc (x a : String × ℚ) :
    ∀ l, a ∈ insertByScoreDesc x l → a = x ∨ a ∈ l := by
  intro l
  induction l with
  | nil => simp [insertByScoreDesc]
  | cons y ys ih =>
    simp only [insertByScoreDesc]
    split
    · intro h
      rcases List.mem_cons.1 h with h | h
      · exact Or.inl h
      · exact Or.inr h
    · intro h
      rcases List.mem_cons.1 h with h | h
      · exact Or.inr (by simp [h])
      · rcases ih h with h | h
        · exact Or.inl h
        · exact Or.inr (List.mem_cons_of_mem _ h)

theorem mem_sortByScoreDesc (a : String × ℚ) :
    ∀ l, a ∈ sortByScoreDesc l → a ∈ l := by
  intro l
  induction l with
  | nil => simp [sortByScoreDesc]
  | cons x xs ih =>
    intro h
    rcases mem_insertByScoreDesc x a _ h with h | h
    · simp [h]
    · exact List.mem_cons_of_mem _ (ih h)

theorem pairwise_insertByScoreDesc (x : String × ℚ) :
    ∀ l, List.Pairwise (fun a b => b.2 ≤ a.2) l →
      List.Pairwise (fun a b => b.2 ≤ a.2) (insertByScoreDesc x l) := by
  intro l
  induction l with
  | nil => intro _; simp [insertByScoreDesc]
  | cons y ys ih =>
    intro hp
    rcases List.pairwise_cons.1 hp with ⟨hy, hys⟩
    simp only [insertByScoreDesc]
    split
    · rename_i hxy
      refine List.pairwise_cons.2 ⟨?_, hp⟩
      intro b hb
      rcases List.mem_cons.1 hb with h | h
      · subst h; exact hxy
      · exact le_trans (hy b h) hxy
    · rename_i hxy
      push_neg at hxy
      refine List.pairwise_cons.2 ⟨?_, ih hys⟩
      intro b hb
      rcases mem_insertByScoreDesc x b _ hb with h | h
      · subst h; exact le_of_lt hxy
      · exact hy b h

theorem pairwise_sortByScoreDesc :
    ∀ l, List.Pairwise (fun a b => b.2 ≤ a.2) (sortByScoreDesc l) := by
  intro l
  induction l with
  | nil => simp [sortByScoreDesc]
  | cons x xs ih => exact pairwise_insertByScoreDesc x _ ih

theorem fuzzyResults_length_le (q : String) (labels : List String) :
    (fuzzyResults q labels).length ≤ 5 := by
  unfold fuzzyResults
  exact List.length_take_le 5 _

theorem fuzzyResults_pairwise (q : String) (labels : List String) :
    List.Pairwise (fun a b => b.2 ≤ a.2) (fuzzyResults q labels) :=
  List.Pairwise.sublist (List.take_sublist _ _) (pairwise_sortByScoreDesc _)

theorem mem_fuzzyResults (q : String) (labels : List String) (p : String × ℚ)
    (h : p ∈ fuzzyResults q labels) : p.1 ∈ labels ∧ p.2 = tokenSortScore q p.1 := by
  have h1 : p ∈ sortByScoreDesc (labels.map (fun l => (l, tokenSortScore q l))) :=
    (List.take_sublist _ _).mem h
  have h2 := mem_sortByScoreDesc _ _ h1
  rcases List.mem_map.1 h2 with ⟨l, hl, he⟩
  subst he
  exact ⟨hl, rfl⟩

theorem fuzzyPhase_length_le (breeds : Table) (q pre : String) :
    (fuzzyPhase breeds q pre).length ≤ 5 := by
  unfold fuzzyPhase
  split
  · simp
  · rw [List.length_map]
    exact le_trans (List.length_filter_le _ _) (fuzzyResults_length_le _ _)

theorem fuzzyPhase_pairwise (breeds : Table) (q pre : String) :
    List.Pairwise (fun a b => b.score.getD 0 ≤ a.score.getD 0) (fuzzyPhase breeds q pre) := by
  unfold fuzzyPhase
  split
  · simp
  · refine List.Pairwise.map _ ?_
      (List.Pairwise.sublist (List.filter_sublist _) (fuzzyResults_pairwise _ _))
    intro a b hab
    simpa [fuzzyCandOf] using hab

/-! ### Dict and provenance lemmas -/

theorem dictFind_cons (k0 : String) (v0 : FuzzyInfo) (rest : List (String × FuzzyInfo))
    (l : String) :
    dictFind ((k0, v0) :: rest) l = if k0 = l then some v0 else dictFind rest l := by
  by_cases h : k0 = l
  · simp [dictFind, List.find?_cons, h]
  · simp [dictFind, List.find?_cons, h]

theorem dictFind_insert (k : String) (v : FuzzyInfo) (l : String) :
    ∀ m, dictFind (dictInsert m k v) l = if k = l then some v else dictFind m l := by
  intro m
  induction m with
  | nil =>
    by_cases h : k = l <;> simp [dictInsert, dictFind, List.find?_cons, h]
  | cons p rest ih =>
    obtain ⟨k0, v0⟩ := p
    simp only [dictInsert]
    by_cases hk : k0 = k
    · subst hk
      rw [if_pos rfl, dictFind_cons, dictFind_cons]
      by_cases hl : k0 = l <;> simp [hl]
    · rw [if_neg hk, dictFind_cons, dictFind_cons, ih]
      by_cases hl : k0 = l
      · subst hl
        rw [if_pos rfl, if_neg (fun he => hk he.symm), if_pos rfl]
      · simp [hl]

theorem mem_keys_dictFind (l : String) :
    ∀ m : List (String × FuzzyInfo), l ∈ m.map Prod.fst → ∃ v, dictFind m l = some v := by
  intro m
  induction m with
  | nil => simp
  | cons p rest ih =>
    obtain ⟨k0, v0⟩ := p
    intro h
    rw [dictFind_cons]
    by_cases hk : k0 = l
    · exact ⟨v0, by rw [if_pos hk]⟩
    · rw [if_neg hk]
      apply ih
      rcases List.mem_map.1 h with ⟨p, hp, he⟩
      rcases List.mem_cons.1 hp with h1 | h1
      · exact absurd (by rw [h1] at he; exact he) hk
      · exact List.mem_map.2 ⟨p, h1, he⟩

theorem buildLabels_foldl_find (pre l : String) :
    ∀ (breeds : Table) (acc : List (String × FuzzyInfo)),
      dictFind
          (breeds.foldl
            (fun acc p =>
              if isEligible p.2 pre then
                dictInsert acc p.2.label ⟨p.1, p.2.healthyPaws.getD "", p.2.label⟩
              else acc)
            acc) l =
        match lastEligibleInfo breeds pre l with
        | some i => some i
        | none => dictFind acc l := by
  intro breeds
  induction breeds with
  | nil => intro acc; simp [lastEligibleInfo]
  | cons p rest ih =>
    intro acc
    obtain ⟨k, d⟩ := p
    rw [List.foldl_cons, ih]
    cases hrest : lastEligibleInfo rest pre l with
    | some i => simp [lastEligibleInfo, hrest]
    | none =>
      simp only [lastEligibleInfo, hrest]
      by_cases he : isEligible d pre = true
      · rw [if_pos he, dictFind_insert]
        by_cases hl : d.label = l
        · rw [if_pos hl, if_pos ⟨he, hl⟩]
        · rw [if_neg hl, if_neg (fun hc => hl hc.2)]
      · rw [if_neg he, if_neg (fun hc => he hc.1)]

theorem buildLabels_find (breeds : Table) (pre l : String) :
    dictFind (buildLabels breeds pre) l = lastEligibleInfo breeds pre l := by
  unfold buildLabels
  rw [buildLabels_foldl_find]
  cases lastEligibleInfo breeds pre l <;> simp [dictFind]

theorem isEligible_iff (d : BreedData) (pre : String) :
    isEligible d pre = true ↔
      (∃ hp, d.healthyPaws = some hp ∧ hp ≠ "") ∧
        startsWith pre (d.prudentPet.getD "") = true := by
  unfold isEligible optTruthy
  cases hhp : d.healthyPaws with
  | none => simp
  | some s =>
    rw [Bool.and_eq_true]
    constructor
    · rintro ⟨h1, h2⟩
      refine ⟨⟨s, rfl, ?_⟩, h2⟩
      intro he
      subst he
      exact absurd h1 (by decide)
    · rintro ⟨⟨hp, hhp2, hne⟩, h2⟩
      refine ⟨?_, h2⟩
      cases hhp2
      cases hse : s.isEmpty with
      | true => exact absurd ((String.isEmpty_iff s).1 hse) hne
      | false => simp [hse]

theorem lastEligibleInfo_spec (pre l : String) :
    ∀ (breeds : Table) (i : FuzzyInfo), lastEligibleInfo breeds pre l = some i →
      ∃ k d hp, (k, d) ∈ breeds ∧ d.healthyPaws = some hp ∧ hp ≠ "" ∧
        startsWith pre (d.prudentPet.getD "") = true ∧
        i.key = k ∧ i.breedId = hp ∧ i.label = d.label ∧ d.label = l := by
  intro breeds
  induction breeds with
  | nil => intro i h; simp [lastEligibleInfo] at h
  | cons p rest ih =>
    obtain ⟨k, d⟩ := p
    intro i h
    simp only [lastEligibleInfo] at h
    cases hrest : lastEligibleInfo rest pre l with
    | some j =>
      rw [hrest] at h
      have hji : j = i := by injection h
      subst hji
      rcases ih j hrest with ⟨k1, d1, hp1, hmem, hrest'⟩
      exact ⟨k1, d1, hp1, List.mem_cons_of_mem _ hmem, hrest'⟩
    | none =>
      rw [hrest] at h
      by_cases hcond : isEligible d pre = true ∧ d.label = l
      · rw [if_pos hcond] at h
        obtain ⟨he, hl⟩ := hcond
        have hi : ({ key := k, breedId := d.healthyPaws.getD "", label := d.label } :
            FuzzyInfo) = i := by injection h
        subst hi
        rcases (isEligible_iff d pre).1 he with ⟨⟨hp, hhp, hne⟩, hsw⟩
        exact ⟨k, d, hp, List.mem_cons_self _ _, hhp, hne, hsw, rfl,
          by simp [hhp], rfl, hl⟩
      · rw [if_neg hcond] at h
        cases h

theorem searchPass_mem_spec (ql pre : String) (m : MatchCand) :
    ∀ breeds : Table, m ∈ searchPass breeds ql pre →
      ∃ k d hp, (k, d) ∈ breeds ∧ d.healthyPaws = some hp ∧ hp ≠ "" ∧
        startsWith pre (d.prudentPet.getD "") = true ∧
        m.key = k ∧ m.label = d.label ∧ m.breedId = hp := by
  intro breeds
  induction breeds with
  | nil => simp [searchPass]
  | cons p rest ih =>
    obtain ⟨k, d⟩ := p
    simp only [searchPass]
    split
    · rename_i he
      rcases (isEligible_iff d pre).1 he with ⟨⟨hp, hhp, hne⟩, hsw⟩
      have hhead : ∀ mt : String,
          m = ⟨k, d.label, d.healthyPaws.getD "", mt, none⟩ →
          ∃ k1 d1 hp1, (k1, d1) ∈ (k, d) :: rest ∧ d1.healthyPaws = some hp1 ∧ hp1 ≠ "" ∧
            startsWith pre (d1.prudentPet.getD "") = true ∧
            m.key = k1 ∧ m.label = d1.label ∧ m.breedId = hp1 := by
        intro mt hm
        exact ⟨k, d, hp, List.mem_cons_self _ _, hhp, hne, hsw,
          by rw [hm], by rw [hm], by rw [hm]; simp [hhp]⟩
      have htail : m ∈ searchPass rest ql pre →
          ∃ k1 d1 hp1, (k1, d1) ∈ (k, d) :: rest ∧ d1.healthyPaws = some hp1 ∧ hp1 ≠ "" ∧
            startsWith pre (d1.prudentPet.getD "") = true ∧
            m.key = k1 ∧ m.label = d1.label ∧ m.breedId = hp1 := by
        intro h
        rcases ih h with ⟨k1, d1, hp1, hmem, hrest'⟩
        exact ⟨k1, d1, hp1, List.mem_cons_of_mem _ hmem, hrest'⟩
      split
      · intro h
        rcases List.mem_cons.1 h with h | h
        · exact hhead "exact" h
        · exact htail h
      · split
        · intro h
          rcases List.mem_cons.1 h with h | h
          · exact hhead "partial" h
          · exact htail h
        · exact htail
    · intro h
      rcases ih h with ⟨k1, d1, hp1, hmem, hrest'⟩
      exact ⟨k1, d1, hp1, List.mem_cons_of_mem _ hmem, hrest'⟩

theorem fuzzyPhase_mem_spec (q pre : String) (m : MatchCand) (breeds : Table)
    (h : m ∈ fuzzyPhase breeds q pre) :
    ∃ k d hp, (k, d) ∈ breeds ∧ d.healthyPaws = some hp ∧ hp ≠ "" ∧
      startsWith pre (d.prudentPet.getD "") = true ∧
      m.key = k ∧ m.label = d.label ∧ m.breedId = hp := by
  rcases (mem_fuzzyPhase_iff breeds q pre m).1 h with ⟨p, hp, he⟩
  have hres := (List.filter_sublist _).mem hp
  have hmem := (mem_fuzzyResults q _ p hres).1
  rcases mem_keys_dictFind p.1 _ hmem with ⟨v, hv⟩
  rw [buildLabels_find] at hv
  rcases lastEligibleInfo_spec pre p.1 breeds v hv with
    ⟨k, d, hpv, hmemb, hhp, hne, hsw, hkey, hbid, hlab, _⟩
  refine ⟨k, d, hpv, hmemb, hhp, hne, hsw, ?_, ?_, ?_⟩
  · rw [he]; simp [fuzzyCandOf, buildLabels_find, hv, hkey]
  · rw [he]; simp [fuzzyCandOf, buildLabels_find, hv, hlab]
  · rw [he]; simp [fuzzyCandOf, buildLabels_find, hv, hbid]

theorem search_breeds_mem_spec (q sp : String) (m : MatchCand) (breeds : Table)
    (h : m ∈ (search_breeds breeds q sp).matchList) :
    ∃ k d hp, (k, d) ∈ breeds ∧ d.healthyPaws = some hp ∧ hp ≠ "" ∧
      startsWith (spTag sp) (d.prudentPet.getD "") = true ∧
      m.key = k ∧ m.label = d.label ∧ m.breedId = hp := by
  rw [matchList_eq] at h
  split at h
  · exact fuzzyPhase_mem_spec _ _ _ _ h
  · exact searchPass_mem_spec _ _ _ _ h

/-! ### Existence of candidates for matching records -/

theorem isSubstrL_nil_left (l : List Char) : isSubstrL [] l = true := by
  cases l <;> simp [isSubstrL, List.isPrefixOf]

theorem searchPass_nil_sub (ql pre : String) (k0 : String) (d0 : BreedData) (rest : Table)
    (h : searchPass ((k0, d0) :: rest) ql pre = []) : searchPass rest ql pre = [] := by
  simp only [searchPass] at h
  split at h
  · split at h
    · simp at h
    · split at h
      · simp at h
      · exact h
  · exact h

theorem searchPass_ne_nil_of_exact (ql pre : String) :
    ∀ breeds : Table, ∀ k d, (k, d) ∈ breeds → isEligible d pre = true →
      lowerStr d.label = ql → searchPass breeds ql pre ≠ [] := by
  intro breeds
  induction breeds with
  | nil => simp
  | cons p rest ih =>
    obtain ⟨k0, d0⟩ := p
    intro k d hmem he hl
    rcases List.mem_cons.1 hmem with hh | hh
    · obtain ⟨hk, hd⟩ := Prod.mk.injEq .. ▸ hh
      intro hnil
      simp only [searchPass] at hnil
      rw [← hd] at hnil
      rw [if_pos he, if_pos (Or.inl hl)] at hnil
      simp at hnil
    · intro hnil
      exact ih k d hh he hl (searchPass_nil_sub _ _ _ _ _ hnil)

theorem searchPass_empty_query (pre : String) :
    ∀ breeds : Table, ∀ k d, (k, d) ∈ breeds → isEligible d pre = true →
      ∃ m ∈ searchPass breeds "" pre, m.key = k ∧ m.label = d.label ∧
        (m.matchType = "partial" ∨
          (m.matchType = "exact" ∧ (lowerStr d.label = "" ∨ k = ""))) := by
  intro breeds
  induction breeds with
  | nil => simp
  | cons p rest ih =>
    obtain ⟨k0, d0⟩ := p
    intro k d hmem he
    have htail : (∃ m ∈ searchPass rest "" pre, m.key = k ∧ m.label = d.label ∧
        (m.matchType = "partial" ∨
          (m.matchType = "exact" ∧ (lowerStr d.label = "" ∨ k = "")))) →
        ∃ m ∈ searchPass ((k0, d0) :: rest) "" pre, m.key = k ∧ m.label = d.label ∧
          (m.matchType = "partial" ∨
            (m.matchType = "exact" ∧ (lowerStr d.label = "" ∨ k = ""))) := by
      rintro ⟨m, hm, hprop⟩
      refine ⟨m, ?_, hprop⟩
      simp only [searchPass]
      split
      · split
        · exact List.mem_cons_of_mem _ hm
        · split
          · exact List.mem_cons_of_mem _ hm
          · exact hm
      · exact hm
    rcases List.mem_cons.1 hmem with hh | hh
    · obtain ⟨hk, hd⟩ := Prod.mk.injEq .. ▸ hh
      subst hk hd
      simp only [searchPass]
      rw [if_pos he]
      by_cases hex : lowerStr d.label = "" ∨ k = ""
      · rw [if_pos hex]
        exact ⟨_, List.mem_cons_self _ _, rfl, rfl, Or.inr ⟨rfl, hex⟩⟩
      · rw [if_neg hex]
        rw [if_pos (Or.inl ((by simpa [substrStr] using isSubstrL_nil_left (lowerStr d.label).data)))]
        exact ⟨_, List.mem_cons_self _ _, rfl, rfl, Or.inl rfl⟩
    · exact htail (ih k d hh he)

/-! ### Species tag exclusivity -/

theorem isPrefixOf_head (a b c : Char) (as bs t : List Char)
    (h1 : (a :: as).isPrefixOf (c :: t) = true)
    (h2 : (b :: bs).isPrefixOf (c :: t) = true) : a = b := by
  simp only [List.isPrefixOf, Bool.and_eq_true, beq_iff_eq] at h1 h2
  exact h1.1.trans h2.1.symm

theorem startsWith_dog_not_cat (s : String) (h1 : startsWith "Dog~" s = true) :
    ¬ startsWith "Cat~" s = true := by
  intro h2
  unfold startsWith at h1 h2
  have e1 : "Dog~".data = ['D', 'o', 'g', '~'] := by decide
  have e2 : "Cat~".data = ['C', 'a', 't', '~'] := by decide
  rw [e1] at h1
  rw [e2] at h2
  cases hs : s.data with
  | nil => rw [hs] at h1; simp [List.isPrefixOf] at h1
  | cons c t =>
    rw [hs] at h1 h2
    have := isPrefixOf_head 'D' 'C' c _ _ t h1 h2
    simp at this

/-! ### Routing of `resolve_breed_code` for valid inputs -/

theorem resolve_eq_route (breeds : Table) (sp q : String)
    (hsp : sp = "dog" ∨ sp = "cat") (hq : q ≠ "") :
    resolve_breed_code breeds sp q =
      if (search_breeds breeds q sp).count = 0 then .error .notFound
      else if (search_breeds breeds q sp).count = 1 then
        match (search_breeds breeds q sp).matchList with
        | m :: _ => .ok (.resolved m.breedId m.label m.key)
        | [] => .error .notFound
      else
        .ok (.ambiguous (search_breeds breeds q sp).count
          ((search_breeds breeds q sp).matchList.map (fun m => (m.label, m.key, m.matchType)))) := by
  rcases hsp with h | h <;> subst h
  · have h1 : lowerStr "dog" = "dog" := by decide
    simp only [resolve_breed_code, h1]
    rw [if_neg (by decide : ¬("dog" : String) = ""), if_neg (by simp), if_neg hq]
  · have h1 : lowerStr "cat" = "cat" := by decide
    simp only [resolve_breed_code, h1]
    rw [if_neg (by decide : ¬("cat" : String) = ""), if_neg (by simp), if_neg hq]

/-! ### Whitespace and tokenization lemmas -/

theorem toLower_ws (c : Char) (h : c.isWhitespace = true) : c.toLower = c := by
  simp only [Char.isWhitespace, Bool.or_eq_true, decide_eq_true_eq] at h
  rcases h with ((h | h) | h) | h <;> subst h <;> decide

theorem map_toLower_ws (ws : List Char) (h : ∀ c ∈ ws, c.isWhitespace = true) :
    ws.map Char.toLower = ws := by
  induction ws with
  | nil => rfl
  | cons c t ih =>
    rw [List.map_cons, toLower_ws c (h c (List.mem_cons_self _ _)),
      ih (fun d hd => h d (List.mem_cons_of_mem _ hd))]

theorem dropWhile_ws_nil (ws : List Char) (h : ∀ c ∈ ws, c.isWhitespace = true) :
    ws.dropWhile Char.isWhitespace = [] :=
  List.dropWhile_eq_nil_iff.2 h

theorem stripChars_pad (ws1 ws2 x : List Char)
    (h1 : ∀ c ∈ ws1, c.isWhitespace = true) (h2 : ∀ c ∈ ws2, c.isWhitespace = true) :
    stripChars (ws1 ++ x ++ ws2) = stripChars x := by
  unfold stripChars
  rw [List.append_assoc, List.dropWhile_append_of_pos h1, List.dropWhile_append]
  by_cases hx : (x.dropWhile Char.isWhitespace).isEmpty = true
  · rw [if_pos hx]
    rw [List.isEmpty_iff] at hx
    rw [hx, dropWhile_ws_nil ws2 h2]
  · rw [if_neg hx, List.reverse_append,
      List.dropWhile_append_of_pos (fun c hc => h2 c (List.mem_reverse.1 hc))]

theorem stripChars_ws (ws : List Char) (h : ∀ c ∈ ws, c.isWhitespace = true) :
    stripChars ws = [] := by
  unfold stripChars
  rw [dropWhile_ws_nil ws h]
  simp

theorem wsTokensF_nil (f : Nat) : wsTokensF f [] = [] := by
  cases f <;> rfl

theorem wsTokensF_congr :
    ∀ f1 : Nat, ∀ (l : List Char) (f2 : Nat), l.length ≤ f1 → l.length ≤ f2 →
      wsTokensF f1 l = wsTokensF f2 l := by
  intro f1
  induction f1 with
  | zero =>
    intro l f2 hl _
    rw [List.length_eq_zero.1 (Nat.le_zero.1 hl), wsTokensF_nil, wsTokensF_nil]
  | succ f1 ih =>
    intro l f2 hl1 hl2
    cases l with
    | nil => rw [wsTokensF_nil, wsTokensF_nil]
    | cons c rest =>
      cases f2 with
      | zero => exact absurd hl2 (by simp)
      | succ f2 =>
        simp only [wsTokensF]
        have hr1 : rest.length ≤ f1 := Nat.le_of_succ_le_succ (by simpa using hl1)
        have hr2 : rest.length ≤ f2 := Nat.le_of_succ_le_succ (by simpa using hl2)
        by_cases hc : c.isWhitespace = true
        · rw [if_pos hc, if_pos hc]
          exact ih rest f2 hr1 hr2
        · rw [if_neg hc, if_neg hc]
          have hd := (List.dropWhile_sublist (l := rest) (fun d => !d.isWhitespace)).length_le
          exact congrArg (List.cons _) (ih _ f2 (le_trans hd hr1) (le_trans hd hr2))

theorem wsTokens_cons_ws (c : Char) (rest : List Char) (hc : c.isWhitespace = true) :
    wsTokens (c :: rest) = wsTokens rest := by
  unfold wsTokens
  rw [show (c :: rest).length = rest.length + 1 from rfl]
  simp only [wsTokensF]
  rw [if_pos hc]

theorem wsTokens_cons_nws (c : Char) (rest : List Char) (hc : ¬c.isWhitespace = true) :
    wsTokens (c :: rest) =
      (c :: rest.takeWhile (fun d => !d.isWhitespace)) ::
        wsTokens (rest.dropWhile (fun d => !d.isWhitespace)) := by
  unfold wsTokens
  rw [show (c :: rest).length = rest.length + 1 from rfl]
  simp only [wsTokensF]
  rw [if_neg hc]
  refine congrArg (List.cons _) ?_
  exact wsTokensF_congr rest.length _ _
    (List.dropWhile_sublist (l := rest) (fun d => !d.isWhitespace)).length_le le_rfl

theorem wsTokens_ws (ws : List Char) (h : ∀ c ∈ ws, c.isWhitespace = true) :
    wsTokens ws = [] := by
  induction ws with
  | nil => rfl
  | cons c t ih =>
    rw [wsTokens_cons_ws c t (h c (List.mem_cons_self _ _))]
    exact ih (fun d hd => h d (List.mem_cons_of_mem _ hd))

theorem wsTokens_ws_append (ws : List Char) (h : ∀ c ∈ ws, c.isWhitespace = true) :
    ∀ l : List Char, wsTokens (ws ++ l) = wsTokens l := by
  induction ws with
  | nil => intro l; rfl
  | cons c t ih =>
    intro l
    rw [List.cons_append, wsTokens_cons_ws c _ (h c (List.mem_cons_self _ _))]
    exact ih (fun d hd => h d (List.mem_cons_of_mem _ hd)) l

theorem wsTokens_append_ws_aux (ws : List Char) (hws : ∀ c ∈ ws, c.isWhitespace = true) :
    ∀ n : Nat, ∀ l : List Char, l.length ≤ n → wsTokens (l ++ ws) = wsTokens l := by
  intro n
  induction n with
  | zero =>
    intro l hl
    rw [List.length_eq_zero.1 (Nat.le_zero.1 hl)]
    rw [List.nil_append, wsTokens_ws ws hws]
    rfl
  | succ n ih =>
    intro l hl
    cases l with
    | nil =>
      rw [List.nil_append, wsTokens_ws ws hws]
      rfl
    | cons c t =>
      by_cases hc : c.isWhitespace = true
      · rw [List.cons_append, wsTokens_cons_ws c _ hc, wsTokens_cons_ws c t hc]
        exact ih t (Nat.le_of_succ_le_succ (by simpa using hl))
      · rw [List.cons_append, wsTokens_cons_nws c _ hc, wsTokens_cons_nws c t hc]
        by_cases hall : ∀ d ∈ t, (fun d => !d.isWhitespace) d = true
        · rw [List.takeWhile_append_of_pos hall, List.dropWhile_append_of_pos hall]
          have htw : ws.takeWhile (fun d => !d.isWhitespace) = [] := by
            cases ws with
            | nil => rfl
            | cons w u =>
              rw [List.takeWhile_cons_of_neg]
              simp [hws w (List.mem_cons_self _ _)]
          have hdw : ws.dropWhile (fun d => !d.isWhitespace) = ws := by
            cases ws with
            | nil => rfl
            | cons w u =>
              rw [List.dropWhile_cons_of_neg]
              simp [hws w (List.mem_cons_self _ _)]
          rw [htw, hdw, List.append_nil, wsTokens_ws ws hws]
          have ht1 : t.takeWhile (fun d => !d.isWhitespace) = t := by
            have h' := @List.takeWhile_append_of_pos Char (fun d => !d.isWhitespace) t [] hall
            simpa using h'
          have ht2 : t.dropWhile (fun d => !d.isWhitespace) = [] :=
            List.dropWhile_eq_nil_iff.2 hall
          rw [ht1, ht2]
          rfl
        · have hlen : ¬(t.takeWhile (fun d => !d.isWhitespace)).length = t.length := by
            intro hl2
            have heq : List.takeWhile (fun d => !d.isWhitespace) t = t :=
              (List.takeWhile_sublist _).eq_of_length hl2
            exact hall (List.takeWhile_eq_self_iff.1 heq)
          rw [List.takeWhile_append, if_neg hlen, List.dropWhile_append]
          have hne : ¬(t.dropWhile (fun d => !d.isWhitespace)).isEmpty = true := by
            rw [List.isEmpty_iff, List.dropWhile_eq_nil_iff]
            exact hall
          rw [if_neg hne]
          refine congrArg (List.cons _) (ih _ ?_)
          calc (t.dropWhile (fun d => !d.isWhitespace)).length
              ≤ t.length := (List.dropWhile_sublist _).length_le
            _ ≤ n := Nat.le_of_succ_le_succ (by simpa using hl)

theorem wsTokens_pad (ws1 ws2 l : List Char)
    (h1 : ∀ c ∈ ws1, c.isWhitespace = true) (h2 : ∀ c ∈ ws2, c.isWhitespace = true) :
    wsTokens (ws1 ++ l ++ ws2) = wsTokens l := by
  rw [List.append_assoc, wsTokens_ws_append ws1 h1,
    wsTokens_append_ws_aux ws2 h2 l.length l le_rfl]

theorem sortedJoin_pad (ws1 ws2 : List Char) (q : String)
    (h1 : ∀ c ∈ ws1, c.isWhitespace = true) (h2 : ∀ c ∈ ws2, c.isWhitespace = true) :
    sortedJoin ⟨ws1 ++ q.data ++ ws2⟩ = sortedJoin q := by
  unfold sortedJoin
  rw [show (String.mk (ws1 ++ q.data ++ ws2)).data = ws1 ++ q.data ++ ws2 from rfl,
    wsTokens_pad ws1 ws2 q.data h1 h2]

theorem lowerStr_pad (ws1 ws2 : List Char) (q : String)
    (h1 : ∀ c ∈ ws1, c.isWhitespace = true) (h2 : ∀ c ∈ ws2, c.isWhitespace = true) :
    lowerStr ⟨ws1 ++ q.data ++ ws2⟩ = ⟨ws1 ++ (lowerStr q).data ++ ws2⟩ := by
  unfold lowerStr
  rw [show (String.mk (ws1 ++ q.data ++ ws2)).data = ws1 ++ q.data ++ ws2 from rfl]
  rw [List.map_append, List.map_append, map_toLower_ws ws1 h1, map_toLower_ws ws2 h2]

theorem stripStr_lowerStr_pad (ws1 ws2 : List Char) (q : String)
    (h1 : ∀ c ∈ ws1, c.isWhitespace = true) (h2 : ∀ c ∈ ws2, c.isWhitespace = true) :
    stripStr (lowerStr ⟨ws1 ++ q.data ++ ws2⟩) = stripStr (lowerStr q) := by
  rw [lowerStr_pad ws1 ws2 q h1 h2]
  unfold stripStr
  rw [show (String.mk (ws1 ++ (lowerStr q).data ++ ws2)).data =
      ws1 ++ (lowerStr q).data ++ ws2 from rfl]
  rw [stripChars_pad ws1 ws2 _ h1 h2]

theorem tokenSortScore_congr (q1 q2 l : String) (h : sortedJoin q1 = sortedJoin q2) :
    tokenSortScore q1 l = tokenSortScore q2 l := by
  unfold tokenSortScore
  rw [h]

theorem search_breeds_congr (breeds : Table) (sp q1 q2 : String)
    (hql : stripStr (lowerStr q1) = stripStr (lowerStr q2))
    (hsj : sortedJoin q1 = sortedJoin q2) :
    search_breeds breeds q1 sp = search_breeds breeds q2 sp := by
  have hfz : fuzzyPhase breeds q1 (spTag sp) = fuzzyPhase breeds q2 (spTag sp) := by
    unfold fuzzyPhase fuzzyResults
    rw [show (fun l => (l, tokenSortScore q1 l)) = (fun l => (l, tokenSortScore q2 l)) from
      funext (fun l => by rw [tokenSortScore_congr q1 q2 l hsj])]
  unfold search_breeds searchMatches
  rw [hql, hfz]

theorem startsWith_cat_not_dog (s : String) (h1 : startsWith "Cat~" s = true) :
    ¬ startsWith "Dog~" s = true := by
  intro h2
  exact startsWith_dog_not_cat s h2 h1

theorem resolve_ok_of_matches (breeds : Table) (sp q : String)
    (hsp : sp = "dog" ∨ sp = "cat") (hq : q ≠ "")
    (hne : (search_breeds breeds q sp).matchList ≠ []) :
    ∃ r, resolve_breed_code breeds sp q = .ok r := by
  rw [resolve_eq_route breeds sp q hsp hq, count_eq]
  rcases hml : (search_breeds breeds q sp).matchList with _ | ⟨m, t⟩
  · exact absurd hml hne
  · cases t with
    | nil => exact ⟨.resolved m.breedId m.label m.key, by simp⟩
    | cons m2 t2 =>
      refine ⟨.ambiguous (m :: m2 :: t2).length
        ((m :: m2 :: t2).map (fun m => (m.label, m.key, m.matchType))), ?_⟩
      rw [if_neg (by simp), if_neg (by simp [List.length_cons])]

/-! ### Claim theorems -/

/-- C1 counterexample: the claim says that whenever some record matches the
query exactly, the match list contains only exact candidates. On the table
with records labelled `X` (exact for query `x`) and `Xy` (a partial match),
the matcher returns an exact candidate AND a partial candidate: the single
pass classifies each record independently and does not suppress partial
matches when an exact match exists. -/
theorem c1_counterexample :
    ((search_breeds
        [("a", ⟨"X", some "1", some "Dog~x"⟩), ("b", ⟨"Xy", some "2", some "Dog~y"⟩)]
        "x" "dog").matchList.map (fun m => m.matchType)) = ["exact", "partial"] := by
  decide

/-- C1 amended: if at least one exact candidate is in the match list, then no
fuzzy candidate appears in it (the fuzzy phase runs only when the
exact/partial pass produced nothing); partial candidates from other records
may however appear alongside exact ones. -/
theorem c1_amended_exact_excludes_fuzzy (breeds : Table) (q sp : String)
    (h : ∃ m ∈ (search_breeds breeds q sp).matchList, m.matchType = "exact") :
    ∀ m ∈ (search_breeds breeds q sp).matchList, m.matchType ≠ "fuzzy" := by
  rcases h with ⟨m0, hm0, he0⟩
  intro m hm hf
  have hnil := fuzzy_only_if_searchPass_nil breeds q sp m hm hf
  rw [matchList_eq, if_pos (by simp [hnil])] at hm0
  have hfz := (fuzzyPhase_shape breeds q (spTag sp) m0 hm0).1
  have : ("exact" : String) = "fuzzy" := he0.symm.trans hfz
  exact absurd this (by decide)

/-- C1 amended witness at a concrete input. -/
theorem c1_amended_witness :
    (∃ m ∈ (search_breeds [("a", ⟨"X", some "1", some "Dog~x"⟩)] "x" "dog").matchList,
        m.matchType = "exact") ∧
      ∀ m ∈ (search_breeds [("a", ⟨"X", some "1", some "Dog~x"⟩)] "x" "dog").matchList,
        m.matchType ≠ "fuzzy" :=
  ⟨by decide, c1_amended_exact_excludes_fuzzy _ _ _ (by decide)⟩

/-- C2 counterexample: the claim says every query that is blank after
trimming fails with InvalidQuery. The code only rejects the empty string
(`if not breed_name`), so the whitespace-only query `" "` is NOT rejected:
on an empty table it reaches matching and fails with NotFound instead. -/
theorem c2_counterexample :
    resolve_breed_code [] "dog" " " = .error .notFound ∧
      resolve_breed_code [] "dog" " " ≠ .error .breedRequired := by
  constructor <;> decide

/-- C2 amended: for the EMPTY query string, `resolve` fails with
InvalidQuery (the `"Breed name is required"` raise site), for every valid
species and every table; a non-empty whitespace-only query is not rejected
as InvalidQuery. -/
theorem c2_amended_empty_query (breeds : Table) (species_type : String)
    (hsp : lowerStr species_type = "dog" ∨ lowerStr species_type = "cat") :
    resolve_breed_code breeds species_type "" = .error .breedRequired := by
  have hne : species_type ≠ "" := by
    intro he
    subst he
    rcases hsp with h | h <;> exact absurd h (by decide)
  simp only [resolve_breed_code]
  rw [if_neg hne, if_neg (not_not_intro hsp)]
  simp

/-- C2 amended witness at a concrete input. -/
theorem c2_amended_witness :
    (lowerStr "dog" = "dog" ∨ lowerStr "dog" = "cat") ∧
      resolve_breed_code [] "dog" "" = Except.error BreedErr.breedRequired :=
  ⟨Or.inl (by decide), c2_amended_empty_query [] "dog" (Or.inl (by decide))⟩

/-- C8 confirmed: for every species string that is empty or whose
lower-casing is neither `dog` nor `cat`, `resolve` fails with one of the two
species-validation errors (InvalidSpecies), which is distinct from the
NotFound filter result and from the query error, for every query and table. -/
theorem c8_invalid_species (breeds : Table) (species_type breed_name : String)
    (h : lowerStr species_type ≠ "dog" ∧ lowerStr species_type ≠ "cat") :
    ∃ e, resolve_breed_code breeds species_type breed_name = .error e ∧
      (e = .speciesRequired ∨ e = .speciesInvalid) ∧
      e ≠ .notFound ∧ e ≠ .breedRequired := by
  by_cases hsp0 : species_type = ""
  · refine ⟨.speciesRequired, ?_, Or.inl rfl, by decide, by decide⟩
    simp [resolve_breed_code, hsp0]
  · refine ⟨.speciesInvalid, ?_, Or.inr rfl, by decide, by decide⟩
    simp only [resolve_breed_code]
    rw [if_neg hsp0, if_pos (by push_neg; exact h)]

/-- C8 witness at a concrete input. -/
theorem c8_witness :
    (lowerStr "bird" ≠ "dog" ∧ lowerStr "bird" ≠ "cat") ∧
      ∃ e, resolve_breed_code [] "bird" "x" = .error e ∧
        (e = .speciesRequired ∨ e = .speciesInvalid) ∧
        e ≠ .notFound ∧ e ≠ .breedRequired :=
  ⟨⟨by decide, by decide⟩, c8_invalid_species [] "bird" "x" ⟨by decide, by decide⟩⟩

/-- C9 confirmed: the loader reads and parses the dataset only when the
cache is empty (first call); any later call returns the cached table
unchanged, does not read again, and leaves the cache state unchanged, so
calling `load` twice equals calling it once. -/
theorem c9_loader_idempotent (disk : Table) :
    load_breeds_cache none disk = (disk, some disk, true)
    ∧ (∀ t : Table, load_breeds_cache (some t) disk = (t, some t, false))
    ∧ (load_breeds_cache (load_breeds_cache none disk).2.1 disk).1
        = (load_breeds_cache none disk).1
    ∧ (load_breeds_cache (load_breeds_cache none disk).2.1 disk).2.1
        = (load_breeds_cache none disk).2.1
    ∧ (load_breeds_cache (load_breeds_cache none disk).2.1 disk).2.2 = false :=
  ⟨rfl, fun _ => rfl, rfl, rfl, rfl⟩

/-- C5 confirmed: for every valid species and non-empty query, an empty
match list makes `resolve` fail with NotFound; a single candidate yields a
resolved result carrying exactly the sole candidate's breedId, label and
key; two or more candidates yield an ambiguous result whose count is the
length of the candidate list and whose options are the full candidate list
in order, projected to (label, key, matchType). -/
theorem c5_cardinality_routing (breeds : Table) (species_type q : String)
    (hsp : species_type = "dog" ∨ species_type = "cat") (hq : q ≠ "") :
    ((search_breeds breeds q species_type).matchList = [] →
        resolve_breed_code breeds species_type q = .error .notFound)
    ∧ (∀ m : MatchCand, (search_breeds breeds q species_type).matchList = [m] →
        resolve_breed_code breeds species_type q = .ok (.resolved m.breedId m.label m.key))
    ∧ (2 ≤ (search_breeds breeds q species_type).matchList.length →
        resolve_breed_code breeds species_type q =
          .ok (.ambiguous (search_breeds breeds q species_type).matchList.length
            ((search_breeds breeds q species_type).matchList.map
              (fun m => (m.label, m.key, m.matchType))))) := by
  rw [resolve_eq_route breeds species_type q hsp hq, count_eq]
  refine ⟨?_, ?_, ?_⟩
  · intro h
    rw [h]
    simp
  · intro m h
    rw [h]
    simp
  · intro h
    rw [if_neg (by omega), if_neg (by omega)]

/-- C5 witness at a concrete input with two candidates. -/
theorem c5_witness :
    (("dog" : String) = "dog" ∨ ("dog" : String) = "cat") ∧ ("x" : String) ≠ "" ∧
    (((search_breeds [("a", ⟨"X", some "1", some "Dog~x"⟩), ("b", ⟨"Xy", some "2", some "Dog~y"⟩)]
          "x" "dog").matchList = [] →
        resolve_breed_code [("a", ⟨"X", some "1", some "Dog~x"⟩), ("b", ⟨"Xy", some "2", some "Dog~y"⟩)]
          "dog" "x" = .error .notFound)
      ∧ (∀ m : MatchCand,
          (search_breeds [("a", ⟨"X", some "1", some "Dog~x"⟩), ("b", ⟨"Xy", some "2", some "Dog~y"⟩)]
            "x" "dog").matchList = [m] →
          resolve_breed_code [("a", ⟨"X", some "1", some "Dog~x"⟩), ("b", ⟨"Xy", some "2", some "Dog~y"⟩)]
            "dog" "x" = .ok (.resolved m.breedId m.label m.key))
      ∧ (2 ≤ (search_breeds [("a", ⟨"X", some "1", some "Dog~x"⟩), ("b", ⟨"Xy", some "2", some "Dog~y"⟩)]
            "x" "dog").matchList.length →
          resolve_breed_code [("a", ⟨"X", some "1", some "Dog~x"⟩), ("b", ⟨"Xy", some "2", some "Dog~y"⟩)]
            "dog" "x" =
            .ok (.ambiguous
              (search_breeds [("a", ⟨"X", some "1", some "Dog~x"⟩), ("b", ⟨"Xy", some "2", some "Dog~y"⟩)]
                "x" "dog").matchList.length
              ((search_breeds [("a", ⟨"X", some "1", some "Dog~x"⟩), ("b", ⟨"Xy", some "2", some "Dog~y"⟩)]
                "x" "dog").matchList.map (fun m => (m.label, m.key, m.matchType)))))) :=
  ⟨Or.inl rfl, by decide,
    c5_cardinality_routing [("a", ⟨"X", some "1", some "Dog~x"⟩), ("b", ⟨"Xy", some "2", some "Dog~y"⟩)]
      "dog" "x" (Or.inl rfl) (by decide)⟩

/-- C6 confirmed: every candidate in any match list (from any phase) is
backed by a table record with a non-empty HealthyPaws identifier and a
PrudentPet identifier starting with the capitalized requested species
followed by `~`; consequently, when resolving for `dog` the backing record
can never carry a `Cat~` tag, and symmetrically for `cat`, so a record
tagged for one species never appears when resolving for the other. -/
theorem c6_eligibility_species_isolation (breeds : Table) (q sp : String) (m : MatchCand)
    (hm : m ∈ (search_breeds breeds q sp).matchList) :
    ∃ k d hp, (k, d) ∈ breeds ∧ m.key = k ∧ m.label = d.label ∧
      d.healthyPaws = some hp ∧ hp ≠ "" ∧ m.breedId = hp ∧
      startsWith (spTag sp) (d.prudentPet.getD "") = true ∧
      (sp = "dog" → ¬ startsWith "Cat~" (d.prudentPet.getD "") = true) ∧
      (sp = "cat" → ¬ startsWith "Dog~" (d.prudentPet.getD "") = true) := by
  rcases search_breeds_mem_spec q sp m breeds hm with
    ⟨k, d, hp, hmem, hhp, hne, hsw, hkey, hlab, hbid⟩
  refine ⟨k, d, hp, hmem, hkey, hlab, hhp, hne, hbid, hsw, ?_, ?_⟩
  · intro hdog
    subst hdog
    have hsw2 : startsWith "Dog~" (d.prudentPet.getD "") = true := by
      have : spTag "dog" = "Dog~" := by decide
      rw [← this]
      exact hsw
    exact startsWith_dog_not_cat _ hsw2
  · intro hcat
    subst hcat
    have hsw2 : startsWith "Cat~" (d.prudentPet.getD "") = true := by
      have : spTag "cat" = "Cat~" := by decide
      rw [← this]
      exact hsw
    exact startsWith_cat_not_dog _ hsw2

/-- C6 witness at a concrete input. -/
theorem c6_witness :
    (⟨"a", "X", "1", "exact", none⟩ : MatchCand) ∈
        (search_breeds [("a", ⟨"X", some "1", some "Dog~x"⟩)] "x" "dog").matchList ∧
      ∃ k d hp, (k, d) ∈ [("a", (⟨"X", some "1", some "Dog~x"⟩ : BreedData))] ∧
        (⟨"a", "X", "1", "exact", none⟩ : MatchCand).key = k ∧
        (⟨"a", "X", "1", "exact", none⟩ : MatchCand).label = d.label ∧
        d.healthyPaws = some hp ∧ hp ≠ "" ∧
        (⟨"a", "X", "1", "exact", none⟩ : MatchCand).breedId = hp ∧
        startsWith (spTag "dog") (d.prudentPet.getD "") = true ∧
        (("dog" : String) = "dog" → ¬ startsWith "Cat~" (d.prudentPet.getD "") = true) ∧
        (("dog" : String) = "cat" → ¬ startsWith "Dog~" (d.prudentPet.getD "") = true) :=
  ⟨by decide,
    c6_eligibility_species_isolation [("a", ⟨"X", some "1", some "Dog~x"⟩)] "x" "dog"
      ⟨"a", "X", "1", "exact", none⟩ (by decide)⟩

/-- C10 counterexample: the claim says every species-eligible record is
returned as a PARTIAL-phase candidate for a whitespace-only query. A record
whose label is the empty string satisfies the exact-match test against the
trimmed query (both are empty), so it is returned as an EXACT candidate
instead. -/
theorem c10_counterexample :
    (search_breeds [("k", ⟨"", some "1", some "Dog~x"⟩)] " " "dog").matchList
        = [⟨"k", "", "1", "exact", none⟩] ∧
      resolve_breed_code [("k", ⟨"", some "1", some "Dog~x"⟩)] "dog" " "
        = .ok (.resolved "1" "" "k") := by
  constructor <;> decide

/-- C10 amended: for every non-empty whitespace-only query and valid
species, `resolve` does not fail with InvalidQuery; the trimmed query is
empty, so every species-eligible record is returned as a candidate — as a
partial candidate, except that a record whose lower-cased label or key is
itself empty matches exactly — and the call yields a success result
(Resolved or Ambiguous) whenever at least one eligible record exists. -/
theorem c10_amended_blank_query (breeds : Table) (species_type q : String)
    (hsp : species_type = "dog" ∨ species_type = "cat") (hq : q ≠ "")
    (hws : ∀ c ∈ q.data, c.isWhitespace = true) :
    resolve_breed_code breeds species_type q ≠ .error .breedRequired
    ∧ (∀ p ∈ breeds, isEligible p.2 (spTag species_type) = true →
        ∃ m ∈ (search_breeds breeds q species_type).matchList,
          m.key = p.1 ∧ m.label = p.2.label ∧
          (m.matchType = "partial" ∨
            (m.matchType = "exact" ∧ (lowerStr p.2.label = "" ∨ p.1 = ""))))
    ∧ ((∃ p ∈ breeds, isEligible p.2 (spTag species_type) = true) →
        ∃ r, resolve_breed_code breeds species_type q = .ok r) := by
  have hql : stripStr (lowerStr q) = "" := by
    unfold stripStr lowerStr
    rw [show (String.mk (q.data.map Char.toLower)).data = q.data.map Char.toLower from rfl]
    rw [map_toLower_ws q.data hws, stripChars_ws q.data hws]
  refine ⟨?_, ?_, ?_⟩
  · rw [resolve_eq_route breeds species_type q hsp hq]
    split
    · decide
    · split
      · cases (search_breeds breeds q species_type).matchList with
        | nil => decide
        | cons m t => simp
      · simp
  · intro p hp hel
    obtain ⟨k, d⟩ := p
    rcases searchPass_empty_query (spTag species_type) breeds k d hp hel with ⟨m, hm, hprop⟩
    rw [matchList_eq, hql]
    rw [if_neg (by rw [List.isEmpty_iff]; exact List.ne_nil_of_mem hm)]
    exact ⟨m, hm, hprop⟩
  · rintro ⟨p, hp, hel⟩
    obtain ⟨k, d⟩ := p
    rcases searchPass_empty_query (spTag species_type) breeds k d hp hel with ⟨m, hm, _⟩
    refine resolve_ok_of_matches breeds species_type q hsp hq ?_
    rw [matchList_eq, hql]
    rw [if_neg (by rw [List.isEmpty_iff]; exact List.ne_nil_of_mem hm)]
    exact List.ne_nil_of_mem hm

/-- C10 amended witness at a concrete input. -/
theorem c10_amended_witness :
    (("dog" : String) = "dog" ∨ ("dog" : String) = "cat") ∧ (" " : String) ≠ "" ∧
    (∀ c ∈ (" " : String).data, c.isWhitespace = true) ∧
    (resolve_breed_code [("k1", ⟨"A", some "1", some "Dog~"⟩)] "dog" " "
        ≠ .error .breedRequired
      ∧ (∀ p ∈ [("k1", (⟨"A", some "1", some "Dog~"⟩ : BreedData))],
          isEligible p.2 (spTag "dog") = true →
          ∃ m ∈ (search_breeds [("k1", ⟨"A", some "1", some "Dog~"⟩)] " " "dog").matchList,
            m.key = p.1 ∧ m.label = p.2.label ∧
            (m.matchType = "partial" ∨
              (m.matchType = "exact" ∧ (lowerStr p.2.label = "" ∨ p.1 = ""))))
      ∧ ((∃ p ∈ [("k1", (⟨"A", some "1", some "Dog~"⟩ : BreedData))],
            isEligible p.2 (spTag "dog") = true) →
          ∃ r, resolve_breed_code [("k1", ⟨"A", some "1", some "Dog~"⟩)] "dog" " " = .ok r)) :=
  ⟨Or.inl rfl, by decide, by decide,
    c10_amended_blank_query [("k1", ⟨"A", some "1", some "Dog~"⟩)] "dog" " "
      (Or.inl rfl) (by decide) (by decide)⟩

/-- C3 confirmed: fuzzy candidates appear only when the exact/partial pass
produced nothing; when the pass is empty the result has at most 5
candidates, each of matchType fuzzy with a score strictly above 70, they
are in descending score order, and if every eligible label scores at most
70 against the query then `resolve` fails with NotFound. -/
theorem c3_fuzzy_phase_contract (breeds : Table) (species_type q : String)
    (hsp : species_type = "dog" ∨ species_type = "cat") (hq : q ≠ "")
    (hempty : searchPass breeds (stripStr (lowerStr q)) (spTag species_type) = []) :
    (∀ (breeds2 : Table) (q2 sp2 : String) (m : MatchCand),
        m ∈ (search_breeds breeds2 q2 sp2).matchList → m.matchType = "fuzzy" →
          searchPass breeds2 (stripStr (lowerStr q2)) (spTag sp2) = [])
    ∧ (search_breeds breeds q species_type).matchList.length ≤ 5
    ∧ (∀ m ∈ (search_breeds breeds q species_type).matchList,
        m.matchType = "fuzzy" ∧ ∃ s, m.score = some s ∧ 70 < s)
    ∧ List.Pairwise (fun a b => b.score.getD 0 ≤ a.score.getD 0)
        (search_breeds breeds q species_type).matchList
    ∧ ((∀ l ∈ (buildLabels breeds (spTag species_type)).map Prod.fst,
          tokenSortScore q l ≤ 70) →
        resolve_breed_code breeds species_type q = .error .notFound) := by
  have hmat : (search_breeds breeds q species_type).matchList
      = fuzzyPhase breeds q (spTag species_type) := by
    rw [matchList_eq, if_pos (by rw [List.isEmpty_iff]; exact hempty)]
  refine ⟨fun b2 q2 s2 m hm hf => fuzzy_only_if_searchPass_nil b2 q2 s2 m hm hf, ?_, ?_, ?_, ?_⟩
  · rw [hmat]
    exact fuzzyPhase_length_le breeds q (spTag species_type)
  · rw [hmat]
    exact fun m hm => fuzzyPhase_shape breeds q (spTag species_type) m hm
  · rw [hmat]
    exact fuzzyPhase_pairwise breeds q (spTag species_type)
  · intro hscore
    have hfz : fuzzyPhase breeds q (spTag species_type) = [] := by
      unfold fuzzyPhase
      split
      · rfl
      · rw [List.map_eq_nil_iff, List.filter_eq_nil_iff]
        intro p hp hdec
        have h2 := mem_fuzzyResults q _ p hp
        have hgt : (70 : ℚ) < p.2 := by
          rw [← divInt70_eq]
          simpa using hdec
        exact absurd (h2.2 ▸ hgt) (not_lt.2 (hscore p.1 h2.1))
    rw [resolve_eq_route breeds species_type q hsp hq]
    rw [if_pos (by rw [count_eq, hmat, hfz]; rfl)]

/-- C3 witness at a concrete input reaching the fuzzy phase. -/
theorem c3_witness :
    (("dog" : String) = "dog" ∨ ("dog" : String) = "cat") ∧ ("abcdX" : String) ≠ "" ∧
    searchPass [("kk", ⟨"abcde", some "9", some "Dog~q"⟩)]
      (stripStr (lowerStr "abcdX")) (spTag "dog") = [] ∧
    ((∀ (breeds2 : Table) (q2 sp2 : String) (m : MatchCand),
        m ∈ (search_breeds breeds2 q2 sp2).matchList → m.matchType = "fuzzy" →
          searchPass breeds2 (stripStr (lowerStr q2)) (spTag sp2) = [])
      ∧ (search_breeds [("kk", ⟨"abcde", some "9", some "Dog~q"⟩)]
          "abcdX" "dog").matchList.length ≤ 5
      ∧ (∀ m ∈ (search_breeds [("kk", ⟨"abcde", some "9", some "Dog~q"⟩)]
          "abcdX" "dog").matchList,
          m.matchType = "fuzzy" ∧ ∃ s, m.score = some s ∧ 70 < s)
      ∧ List.Pairwise (fun a b => b.score.getD 0 ≤ a.score.getD 0)
          (search_breeds [("kk", ⟨"abcde", some "9", some "Dog~q"⟩)] "abcdX" "dog").matchList
      ∧ ((∀ l ∈ (buildLabels [("kk", ⟨"abcde", some "9", some "Dog~q"⟩)]
            (spTag "dog")).map Prod.fst, tokenSortScore "abcdX" l ≤ 70) →
          resolve_breed_code [("kk", ⟨"abcde", some "9", some "Dog~q"⟩)] "dog" "abcdX"
            = .error .notFound)) :=
  ⟨Or.inl rfl, by decide, by decide,
    c3_fuzzy_phase_contract [("kk", ⟨"abcde", some "9", some "Dog~q"⟩)] "dog" "abcdX"
      (Or.inl rfl) (by decide) (by decide)⟩

/-- C4 counterexample: the claim says the candidate emitted for a duplicated
label carries the key and breedId of the FIRST record with that label. With
two dog-eligible records `k1`, `k2` sharing label `Lab` and a query `Labx`
that reaches the fuzzy phase, the emitted candidate carries `k2` and breed
id `2`: the label dict assignment overwrites, so the LAST record wins. -/
theorem c4_counterexample :
    (search_breeds [("k1", ⟨"Lab", some "1", some "Dog~a"⟩),
        ("k2", ⟨"Lab", some "2", some "Dog~b"⟩)] "Labx" "dog").matchList.map
      (fun m => (m.key, m.breedId, m.matchType)) = [("k2", "2", "fuzzy")] := by
  decide

/-- C4 amended: in the fuzzy phase, the candidate emitted for a label
carries the key and breedId of the LAST eligible record with that label
encountered in table iteration order (dict assignment overwrites the stored
record on a repeated label). -/
theorem c4_amended_last_wins (breeds : Table) (q sp : String) (m : MatchCand)
    (hm : m ∈ (search_breeds breeds q sp).matchList) (hf : m.matchType = "fuzzy") :
    ∃ i, lastEligibleInfo breeds (spTag sp) m.label = some i ∧
      m.key = i.key ∧ m.breedId = i.breedId := by
  have hnil := fuzzy_only_if_searchPass_nil breeds q sp m hm hf
  rw [matchList_eq, if_pos (by simp [hnil])] at hm
  rcases (mem_fuzzyPhase_iff _ _ _ m).1 hm with ⟨p, hp, he⟩
  have hres := (List.filter_sublist _).mem hp
  have hmem := (mem_fuzzyResults _ _ p hres).1
  rcases mem_keys_dictFind p.1 _ hmem with ⟨v, hv⟩
  rw [buildLabels_find] at hv
  rcases lastEligibleInfo_spec (spTag sp) p.1 breeds v hv with
    ⟨k, d, hpv, _, _, _, _, hkey, hbid, hlab, hdl⟩
  have hml : m.label = p.1 := by
    rw [he]
    simp [fuzzyCandOf, buildLabels_find, hv, hlab, hdl]
  refine ⟨v, by rw [hml]; exact hv, ?_, ?_⟩
  · rw [he]
    simp [fuzzyCandOf, buildLabels_find, hv]
  · rw [he]
    simp [fuzzyCandOf, buildLabels_find, hv]

/-- C4 amended witness at the concrete duplicated-label input. -/
theorem c4_amended_witness :
    (⟨"k2", "Lab", "2", "fuzzy", some (Rat.divInt 600 7)⟩ : MatchCand) ∈
        (search_breeds [("k1", ⟨"Lab", some "1", some "Dog~a"⟩),
          ("k2", ⟨"Lab", some "2", some "Dog~b"⟩)] "Labx" "dog").matchList ∧
      (⟨"k2", "Lab", "2", "fuzzy", some (Rat.divInt 600 7)⟩ : MatchCand).matchType = "fuzzy" ∧
      ∃ i, lastEligibleInfo [("k1", ⟨"Lab", some "1", some "Dog~a"⟩),
            ("k2", ⟨"Lab", some "2", some "Dog~b"⟩)] (spTag "dog")
            (⟨"k2", "Lab", "2", "fuzzy", some (Rat.divInt 600 7)⟩ : MatchCand).label = some i ∧
          (⟨"k2", "Lab", "2", "fuzzy", some (Rat.divInt 600 7)⟩ : MatchCand).key = i.key ∧
          (⟨"k2", "Lab", "2", "fuzzy", some (Rat.divInt 600 7)⟩ : MatchCand).breedId = i.breedId :=
  ⟨by decide, by decide,
    c4_amended_last_wins [("k1", ⟨"Lab", some "1", some "Dog~a"⟩),
        ("k2", ⟨"Lab", some "2", some "Dog~b"⟩)] "Labx" "dog"
      ⟨"k2", "Lab", "2", "fuzzy", some (Rat.divInt 600 7)⟩ (by decide) (by decide)⟩

/-- C7 counterexample: the claim says two queries differing only in letter
case produce identical resolve results. The fuzzy phase scores the RAW
query case-sensitively: on a table with the single dog label `abcde`,
query `abcdX` resolves (fuzzy score 80 > 70) while `ABCDX` — the same
query upper-cased — fails with NotFound (score 0). -/
theorem c7_counterexample :
    resolve_breed_code [("k", ⟨"abcde", some "7", some "Dog~z"⟩)] "dog" "abcdX"
        = .ok (.resolved "7" "abcde" "k") ∧
      resolve_breed_code [("k", ⟨"abcde", some "7", some "Dog~z"⟩)] "dog" "ABCDX"
        = .error .notFound := by
  constructor <;> decide

/-- C7 amended: padding a non-empty query with leading/trailing whitespace
never changes the resolve result (for any species and table): the
exact/partial phases use the trimmed lower-cased query and the fuzzy
tokenization discards outer whitespace. Case differences are only
guaranteed harmless when an exact or partial match exists; in particular,
when the table holds a dog-eligible record labelled `Labrador Retriever`,
`resolve("dog", "Labrador Retriever")` and
`resolve("dog", "labrador retriever")` return identical, successful
results (hence the same breedId when a single match makes them Resolved). -/
theorem c7_amended_normalization (breeds : Table) (q : String) (ws1 ws2 : List Char)
    (hq : q ≠ "")
    (h1 : ∀ c ∈ ws1, c.isWhitespace = true) (h2 : ∀ c ∈ ws2, c.isWhitespace = true) :
    (∀ sp : String,
        resolve_breed_code breeds sp ⟨ws1 ++ q.data ++ ws2⟩ = resolve_breed_code breeds sp q)
    ∧ ((∃ p ∈ breeds, p.2.label = "Labrador Retriever" ∧
          isEligible p.2 (spTag "dog") = true) →
        resolve_breed_code breeds "dog" "Labrador Retriever" =
            resolve_breed_code breeds "dog" "labrador retriever"
          ∧ ∃ r, resolve_breed_code breeds "dog" "Labrador Retriever" = .ok r) := by
  constructor
  · intro sp
    have hpad_ne : (⟨ws1 ++ q.data ++ ws2⟩ : String) ≠ "" := by
      intro he
      have hdata : ws1 ++ q.data ++ ws2 = [] := by
        have := congrArg String.data he
        simpa using this
      rcases List.append_eq_nil.1 hdata with ⟨h12, _⟩
      rcases List.append_eq_nil.1 h12 with ⟨_, hqd⟩
      exact hq (String.ext (by rw [hqd]))
    by_cases hsp0 : sp = ""
    · simp [resolve_breed_code, hsp0]
    · by_cases hspv : lowerStr sp = "dog" ∨ lowerStr sp = "cat"
      · have hs := search_breeds_congr breeds (lowerStr sp) ⟨ws1 ++ q.data ++ ws2⟩ q
          (stripStr_lowerStr_pad ws1 ws2 q h1 h2) (sortedJoin_pad ws1 ws2 q h1 h2)
        simp only [resolve_breed_code]
        rw [if_neg hsp0, if_neg hsp0, if_neg (not_not_intro hspv),
          if_neg (not_not_intro hspv), if_neg hpad_ne, if_neg hq, hs]
      · simp only [resolve_breed_code]
        rw [if_neg hsp0, if_neg hsp0, if_pos hspv, if_pos hspv]
  · rintro ⟨p, hmem, hlab, hel⟩
    obtain ⟨k, d⟩ := p
    have hql1 : stripStr (lowerStr "Labrador Retriever") = "labrador retriever" := by decide
    have hql2 : stripStr (lowerStr "labrador retriever") = "labrador retriever" := by decide
    have hlow : lowerStr d.label = "labrador retriever" := by
      rw [show d.label = "Labrador Retriever" from hlab]
      decide
    have hnil : searchPass breeds "labrador retriever" (spTag "dog") ≠ [] :=
      searchPass_ne_nil_of_exact "labrador retriever" (spTag "dog") breeds k d hmem hel hlow
    have hm1 : (search_breeds breeds "Labrador Retriever" "dog").matchList
        = searchPass breeds "labrador retriever" (spTag "dog") := by
      rw [matchList_eq, hql1, if_neg (by rw [List.isEmpty_iff]; exact hnil)]
    have hm2 : (search_breeds breeds "labrador retriever" "dog").matchList
        = searchPass breeds "labrador retriever" (spTag "dog") := by
      rw [matchList_eq, hql2, if_neg (by rw [List.isEmpty_iff]; exact hnil)]
    constructor
    · rw [resolve_eq_route breeds "dog" "Labrador Retriever" (Or.inl rfl) (by decide),
        resolve_eq_route breeds "dog" "labrador retriever" (Or.inl rfl) (by decide),
        count_eq, count_eq, hm1, hm2]
    · exact resolve_ok_of_matches breeds "dog" "Labrador Retriever" (Or.inl rfl) (by decide)
        (by rw [hm1]; exact hnil)

/-- C7 amended witness at a concrete input. -/
theorem c7_amended_witness :
    ("x" : String) ≠ "" ∧ (∀ c ∈ [' '], c.isWhitespace = true) ∧
    (∀ c ∈ ([] : List Char), c.isWhitespace = true) ∧
    ((∀ sp : String,
        resolve_breed_code [("lab", ⟨"Labrador Retriever", some "42", some "Dog~r"⟩)] sp
            ⟨[' '] ++ ("x" : String).data ++ []⟩
          = resolve_breed_code [("lab", ⟨"Labrador Retriever", some "42", some "Dog~r"⟩)] sp "x")
      ∧ ((∃ p ∈ [("lab", (⟨"Labrador Retriever", some "42", some "Dog~r"⟩ : BreedData))],
            p.2.label = "Labrador Retriever" ∧ isEligible p.2 (spTag "dog") = true) →
          resolve_breed_code [("lab", ⟨"Labrador Retriever", some "42", some "Dog~r"⟩)]
              "dog" "Labrador Retriever" =
            resolve_breed_code [("lab", ⟨"Labrador Retriever", some "42", some "Dog~r"⟩)]
              "dog" "labrador retriever"
          ∧ ∃ r, resolve_breed_code [("lab", ⟨"Labrador Retriever", some "42", some "Dog~r"⟩)]
              "dog" "Labrador Retriever" = .ok r)) :=
  ⟨by decide, by decide, by decide,
    c7_amended_normalization [("lab", ⟨"Labrador Retriever", some "42", some "Dog~r"⟩)]
      "x" [' '] [] (by decide) (by decide) (by decide)⟩

end PolicyMCP
